import Mathlib

/-!
Shallow embedding of the `merkle_tree` Rust crate (src/tree.rs, src/proof.rs,
src/utils.rs, src/hasher.rs) and proofs about it.

Digests are byte vectors (`List (Fin 256)`, mirroring `Vec<u8>`); the pluggable
`Hasher` trait is embedded as an abstract pair-hashing function
`HashFn : Digest → Digest → Digest` (the tree and the proofs only ever call
`hash_pair` on already-hashed leaf digests, so `hash_leaf` plays no role in the
properties proved here).  Panics (`panic!`, `unwrap`) are modelled by `Option`:
a `none` result marks an execution that would abort.  Recoverable errors
(`Result<_, &str>`) are modelled by `Except String`.
-/

/-- A byte, as stored in a Rust `Vec<u8>`. -/
abbrev Byte := Fin 256

/-- A digest: an opaque byte vector (`Vec<u8>`). -/
abbrev Digest := List Byte

/-- The `hash_pair` operation of a `Hasher` instance. -/
abbrev HashFn := Digest → Digest → Digest

/-- Lexicographic `≤` on byte vectors: the `Ord` instance of `Vec<u8>` used by
`leaves.sort()` in `MerkleTree::new`. -/
def lexLe : Digest → Digest → Bool
  | [], _ => true
  | _ :: _, [] => false
  | a :: as, b :: bs =>
    if a.val < b.val then true
    else if b.val < a.val then false
    else lexLe as bs

/-- Rust `usize::is_power_of_two`: true iff the number is `2 ^ k` for some `k`
(in particular false at `0`). -/
def is_power_of_two : Nat → Bool
  | 0 => false
  | 1 => true
  | n + 2 => (n + 2) % 2 == 0 && is_power_of_two ((n + 2) / 2)
decreasing_by omega

/-- Loop of `usize::next_power_of_two`: double `power` until it reaches `n`. -/
def npoGo (n power : Nat) (h : 0 < power) : Nat :=
  if power < n then npoGo n (power * 2) (by omega) else power
termination_by n - power
decreasing_by omega

/-- Rust `usize::next_power_of_two`: the least power of two that is `≥ n`
(and `1` at `0`). -/
def next_power_of_two (n : Nat) : Nat :=
  npoGo n 1 (by decide)

/-- Rust `usize::trailing_zeros`, restricted to positive inputs (the code only
applies it to a power of two, which is positive). -/
def trailing_zeros (n : Nat) : Nat :=
  if n ≤ 1 then 0
  else if n % 2 = 1 then 0
  else trailing_zeros (n / 2) + 1
decreasing_by omega

/-- The padding loop at the top of `MerkleTree::build`: while the leaf vector
is shorter than `target`, push a copy of its last element. -/
def padLeaves (leaves : List Digest) (target : Nat) : List Digest :=
  if leaves.length < target then
    padLeaves (leaves ++ [leaves.getLast?.getD []]) target
  else leaves
termination_by target - leaves.length
decreasing_by simp; omega

/-- One pass of the level-building loop in `MerkleTree::build`: the next level
has `width` nodes, node `i` being `hash_pair` of nodes `i*2` and `i*2+1` of the
previous level (the `unwrap`ped lookups are modelled with a default that is
proved unreachable). -/
def buildStep (hp : HashFn) (prev : List Digest) (width : Nat) : List Digest :=
  (List.range width).map fun i => hp ((prev[i * 2]?).getD []) ((prev[i * 2 + 1]?).getD [])

/-- The full `for level in 0..height-1` loop of `MerkleTree::build`: starting
from the (padded) leaf level, stack `steps` further levels, the one above
`level` having width `2 ^ (height - 2 - level)` (Rust `1 << (height-2-level)`).
The result lists every level of the node table, leaves first. -/
def buildUp (hp : HashFn) (height : Nat) : Nat → List Digest → Nat → List (List Digest)
  | _, cur, 0 => [cur]
  | level, cur, steps + 1 =>
    cur :: buildUp hp height (level + 1) (buildStep hp cur (2 ^ (height - 2 - level))) steps

/-- `ProofItem`: a sibling digest plus its side (`is_left` true means the
sibling is the left child). -/
structure ProofItem where
  hash : Digest
  is_left : Bool
deriving DecidableEq

/-- `MerkleProof`: the leaf digest being proven, the ordered proof items
(leaf-adjacent first), and the hasher's `hash_pair`. -/
structure MerkleProof where
  leaf : Digest
  proof_items : List ProofItem
  hp : HashFn

/-- `MerkleProof::calculate_root`: fold the proof items over the leaf digest,
hashing `(item.hash, current)` when the sibling is on the left and
`(current, item.hash)` otherwise. -/
def MerkleProof.calculate_root (p : MerkleProof) : Digest :=
  p.proof_items.foldl
    (fun current item =>
      if item.is_left then p.hp item.hash current else p.hp current item.hash)
    p.leaf

/-- `MerkleProof::verify`: byte equality of the recomputed root with the given
root. -/
def MerkleProof.verify (p : MerkleProof) (root : Digest) : Bool :=
  p.calculate_root == root

/-- Lower-case hex digit for a nibble, as produced by `hex::encode`. -/
def hexDigitChar (n : Nat) : Char :=
  if n < 10 then Char.ofNat (48 + n) else Char.ofNat (87 + n)

/-- Character stream of `hex::encode`: two lower-case hex digits per byte,
high nibble first. -/
def hexEncodeChars : Digest → List Char
  | [] => []
  | b :: bs => hexDigitChar (b.val / 16) :: hexDigitChar (b.val % 16) :: hexEncodeChars bs

/-- `hex::encode` of a byte vector. -/
def hexEncode (d : Digest) : String :=
  String.mk (hexEncodeChars d)

/-- `MerkleProof::to_debug_format`: one string-keyed record per proof item,
with the sibling digest hex-encoded under `"hash"` and the side under
`"direction"` (`"left"` / `"right"`).  The Rust `HashMap<String, String>` is
modelled as an association list. -/
def MerkleProof.to_debug_format (p : MerkleProof) : List (List (String × String)) :=
  p.proof_items.map fun item =>
    [("hash", hexEncode item.hash),
     ("direction", if item.is_left then "left" else "right")]

/-- `MerkleTree`: padded sorted leaves, the node table (`levels[L]` lists the
nodes of level `L`, `L = 0` being the leaves — the `HashMap<(usize, usize), _>`
keyed by `(level, position)` is modelled as this list of levels, which holds
exactly the keys the build loop inserts), the height, and the hasher's
`hash_pair`. -/
structure MerkleTree where
  hp : HashFn
  leaves : List Digest
  levels : List (List Digest)
  height : Nat

/-- `MerkleTree::new`: panics on an empty leaf vector (modelled as `none`),
otherwise sorts the leaves, computes `height = trailing_zeros(npo2) + 1` where
`npo2` is the leaf count if it is a power of two and its `next_power_of_two`
otherwise, then runs `build` (pad to `1 << (height-1)`, then hash level by
level). -/
def MerkleTree.new (leaves : List Digest) (hp : HashFn) : Option MerkleTree :=
  if leaves.isEmpty then none
  else
    let sorted := leaves.mergeSort lexLe
    let npo2 :=
      if is_power_of_two sorted.length then sorted.length
      else next_power_of_two sorted.length
    let height := trailing_zeros npo2 + 1
    let padded := padLeaves sorted (2 ^ (height - 1))
    some ⟨hp, padded, buildUp hp height 0 padded (height - 1), height⟩

/-- Lookup in the node table: `self.nodes.get(&(level, pos))`. -/
def MerkleTree.nodes (t : MerkleTree) (level pos : Nat) : Option Digest :=
  match t.levels[level]? with
  | some lvl => lvl[pos]?
  | none => none

/-- `MerkleTree::root`: the node at `(height - 1, 0)` (the `unwrap` is modelled
with a default that is proved unreachable for built trees). -/
def MerkleTree.root (t : MerkleTree) : Digest :=
  (t.nodes (t.height - 1) 0).getD []

/-- `MerkleTree::get_leaf`. -/
def MerkleTree.get_leaf (t : MerkleTree) (index : Nat) : Option Digest :=
  t.leaves[index]?

/-- `MerkleTree::leaf_count`. -/
def MerkleTree.leaf_count (t : MerkleTree) : Nat :=
  t.leaves.length

/-- `MerkleTree::find_leaf_index`: position of the first leaf equal to the
given value. -/
def MerkleTree.find_leaf_index (t : MerkleTree) (leaf_value : Digest) : Option Nat :=
  t.leaves.findIdx? (fun leaf => leaf == leaf_value)

/-- The sibling-position computation in `MerkleTree::generate_proof`:
`current - 1` for a right child, `current + 1` for a left child. -/
def sibling_index (current_index : Nat) : Nat :=
  if current_index % 2 == 1 then current_index - 1 else current_index + 1

/-- The `for level in 0..height-1` loop of `MerkleTree::generate_proof`:
collect one proof item per level, preferring the sibling from the node table
and falling back to the current node when the sibling is absent (the fallback's
`unwrap` is modelled with a default). -/
def proofItemsGo (t : MerkleTree) : Nat → Nat → Nat → List ProofItem
  | 0, _, _ => []
  | steps + 1, level, current_index =>
    let is_right_child := current_index % 2 == 1
    let item : ProofItem :=
      match t.nodes level (sibling_index current_index) with
      | some sibling => ⟨sibling, is_right_child⟩
      | none => ⟨(t.nodes level current_index).getD [], is_right_child⟩
    item :: proofItemsGo t steps (level + 1) (current_index / 2)

/-- `MerkleTree::generate_proof`: bounds-check the index against the padded
leaf count, then walk the levels collecting sibling items. -/
def MerkleTree.generate_proof (t : MerkleTree) (leaf_index : Nat) :
    Except String MerkleProof :=
  if leaf_index ≥ t.leaves.length then Except.error "Leaf index out of bounds"
  else
    Except.ok
      ⟨(t.leaves[leaf_index]?).getD [],
       proofItemsGo t (t.height - 1) 0 leaf_index,
       t.hp⟩

/-- `MerkleTree::generate_proof_by_value`: linear search for the first equal
leaf, then `generate_proof` at its index. -/
def MerkleTree.generate_proof_by_value (t : MerkleTree) (leaf_value : Digest) :
    Except String MerkleProof :=
  match t.find_leaf_index leaf_value with
  | some index => t.generate_proof index
  | none => Except.error "Leaf value not found in the tree"

/-- `MerkleTree::verify_proof`: compare the tree's own root with the proof's
recomputed root. -/
def MerkleTree.verify_proof (t : MerkleTree) (proof : MerkleProof) : Bool :=
  t.root == proof.calculate_root

/-- Value of one hex character, as accepted by `hex::decode`. -/
def hexVal (c : Char) : Option Nat :=
  if 48 ≤ c.toNat ∧ c.toNat ≤ 57 then some (c.toNat - 48)
  else if 97 ≤ c.toNat ∧ c.toNat ≤ 102 then some (c.toNat - 87)
  else if 65 ≤ c.toNat ∧ c.toNat ≤ 70 then some (c.toNat - 55)
  else none

/-- `hex::decode` on a character stream: two hex digits per byte; odd length or
an invalid character is an error (`none`). -/
def hexDecodeChars : List Char → Option (List Byte)
  | [] => some []
  | [_] => none
  | c1 :: c2 :: rest =>
    match hexVal c1, hexVal c2, hexDecodeChars rest with
    | some hi, some lo, some bytes => some (Fin.ofNat (16 * hi + lo) :: bytes)
    | _, _, _ => none

/-- `hex::decode` of a string. -/
def hexDecode (s : String) : Option Digest :=
  hexDecodeChars s.data

/-- The per-record body of the loop in `verify_with_formatted_proof`:
`hex::decode(item.get("hash").unwrap()).unwrap()` and
`item.get("direction").unwrap() == "left"`; every `unwrap`/decode failure is a
panic, modelled as `none`. -/
def parseProofItem (item : List (String × String)) : Option ProofItem :=
  match item.lookup "hash" with
  | none => none
  | some hash_hex =>
    match hexDecode hash_hex with
    | none => none
    | some hash =>
      match item.lookup "direction" with
      | none => none
      | some direction => some ⟨hash, direction == "left"⟩

/-- The record loop of `verify_with_formatted_proof`, over all records. -/
def parseProofItems : List (List (String × String)) → Option (List ProofItem)
  | [] => some []
  | item :: rest =>
    match parseProofItem item, parseProofItems rest with
    | some pitem, some prest => some (pitem :: prest)
    | _, _ => none

/-- `verify_with_formatted_proof` (src/utils.rs): rebuild a `MerkleProof` from
the wire-format records and verify it against `root`; `none` marks the panics
of the parsing loop. -/
def verify_with_formatted_proof (root : Digest) (leaf : Digest)
    (proof_data : List (List (String × String))) (hp : HashFn) : Option Bool :=
  match parseProofItems proof_data with
  | none => none
  | some proof_items => some ((MerkleProof.mk leaf proof_items hp).verify root)

/-- Second definition of the proof fold, written to follow the spec's words
(start from the leaf, per item in order hash sibling-left or sibling-right),
used to compare `MerkleProof.calculate_root` against the spec. -/
def calcRootSpec (hp : HashFn) (leaf : Digest) : List ProofItem → Digest
  | [] => leaf
  | item :: rest =>
    calcRootSpec hp (if item.is_left then hp item.hash leaf else hp leaf item.hash) rest

/-- A concrete `hash_pair` used to instantiate the generic theorems on sample
inputs. -/
def sampleHp : HashFn := fun a b => a ++ b

/-- Placeholder tree used only as the `getD` default below. -/
def junkTree : MerkleTree :=
  ⟨sampleHp, [], [], 0⟩

/-- Three concrete one-byte leaf digests. -/
def sampleLeaves : List Digest := [[2], [0], [1]]

/-- The tree built from `sampleLeaves` (three leaves, so one padding slot). -/
def sampleTree : MerkleTree :=
  (MerkleTree.new sampleLeaves sampleHp).getD junkTree

/-! ### Helper lemmas: the lexicographic order -/

/-- `lexLe` is total. -/
theorem lexLe_total : ∀ a b : Digest, (lexLe a b || lexLe b a) = true := by
  intro a
  induction a with
  | nil => intro b; simp [lexLe]
  | cons x xs ih =>
    intro b
    cases b with
    | nil => simp [lexLe]
    | cons y ys =>
      simp only [lexLe]
      rcases Nat.lt_trichotomy x.val y.val with h | h | h
      · rw [if_pos h]; simp
      · rw [if_neg (by omega), if_neg (by omega), if_neg (by omega), if_neg (by omega)]
        exact ih ys
      · rw [if_neg (by omega), if_pos h, if_pos h]
        simp

/-- `lexLe` is transitive. -/
theorem lexLe_trans :
    ∀ a b c : Digest, lexLe a b = true → lexLe b c = true → lexLe a c = true := by
  intro a
  induction a with
  | nil => intro b c _ _; simp [lexLe]
  | cons x xs ih =>
    intro b c hab hbc
    cases b with
    | nil => simp [lexLe] at hab
    | cons y ys =>
      cases c with
      | nil => simp [lexLe] at hbc
      | cons z zs =>
        simp only [lexLe] at hab hbc ⊢
        by_cases h1 : x.val < y.val <;> by_cases h2 : y.val < z.val
        · rw [if_pos (by omega)]
        · by_cases h3 : z.val < y.val
          · rw [if_pos h3, if_neg h2] at hbc; exact absurd hbc (by simp)
          · rw [if_pos (by omega)]
        · by_cases h4 : y.val < x.val
          · rw [if_pos h4, if_neg h1] at hab; exact absurd hab (by simp)
          · rw [if_pos (by omega)]
        · by_cases h4 : y.val < x.val
          · rw [if_pos h4, if_neg h1] at hab; exact absurd hab (by simp)
          · by_cases h3 : z.val < y.val
            · rw [if_pos h3, if_neg h2] at hbc; exact absurd hbc (by simp)
            · rw [if_neg h1, if_neg h4] at hab
              rw [if_neg h2, if_neg h3] at hbc
              rw [if_neg (by omega), if_neg (by omega)]
              exact ih ys zs hab hbc

/-! ### Helper lemmas: powers of two, padding -/

/-- `is_power_of_two` is true exactly at the powers of two. -/
theorem is_power_of_two_iff (n : Nat) : is_power_of_two n = true ↔ ∃ k, n = 2 ^ k := by
  induction n using is_power_of_two.induct with
  | case1 =>
    simp only [is_power_of_two]
    constructor
    · intro h; exact absurd h (by simp)
    · rintro ⟨k, hk⟩
      have : 0 < 2 ^ k := Nat.pos_pow_of_pos k (by omega)
      omega
  | case2 =>
    simp only [is_power_of_two]
    exact ⟨fun _ => ⟨0, rfl⟩, fun _ => trivial⟩
  | case3 n ih =>
    simp only [is_power_of_two, Bool.and_eq_true, beq_iff_eq]
    constructor
    · rintro ⟨heven, hrec⟩
      obtain ⟨j, hj⟩ := ih.mp hrec
      exact ⟨j + 1, by rw [Nat.pow_succ]; omega⟩
    · rintro ⟨k, hk⟩
      cases k with
      | zero => simp at hk
      | succ j =>
        rw [Nat.pow_succ] at hk
        have hpos : 0 < 2 ^ j := Nat.pos_pow_of_pos j (by omega)
        refine ⟨by omega, ih.mpr ⟨j, by omega⟩⟩

/-- The loop of `next_power_of_two` returns the least power of two `≥ n`,
provided it starts at a power of two below which every power of two is
below `n`. -/
theorem npoGo_spec (n power : Nat) (h : 0 < power)
    (hpow : ∃ j, power = 2 ^ j) (hinv : ∀ m, 2 ^ m < power → 2 ^ m < n) :
    ∃ k, npoGo n power h = 2 ^ k ∧ n ≤ 2 ^ k ∧ ∀ m, n ≤ 2 ^ m → 2 ^ k ≤ 2 ^ m := by
  obtain ⟨j, rfl⟩ := hpow
  rw [npoGo]
  split
  · next hlt =>
    refine npoGo_spec n (2 ^ j * 2) (by omega) ⟨j + 1, (Nat.pow_succ 2 j).symm⟩ ?_
    intro m hm
    have hm' : m < j + 1 := by
      have := (Nat.pow_lt_pow_iff_right (a := 2) (by omega) (n := m) (m := j + 1))
      rw [Nat.pow_succ] at this
      omega
    have : 2 ^ m ≤ 2 ^ j := Nat.pow_le_pow_right (by omega) (by omega)
    omega
  · next hge =>
    refine ⟨j, rfl, by omega, ?_⟩
    intro m hm
    by_contra hcon
    have hlt : 2 ^ m < 2 ^ j := by omega
    have := hinv m hlt
    omega
termination_by n - power
decreasing_by
  have : 0 < 2 ^ j := Nat.pos_pow_of_pos j (by omega)
  omega

/-- `next_power_of_two n` is the least power of two `≥ n`. -/
theorem next_power_of_two_spec (n : Nat) :
    ∃ k, next_power_of_two n = 2 ^ k ∧ n ≤ 2 ^ k ∧ ∀ m, n ≤ 2 ^ m → 2 ^ k ≤ 2 ^ m := by
  refine npoGo_spec n 1 (by decide) ⟨0, rfl⟩ ?_
  intro m hm
  have : 0 < 2 ^ m := Nat.pos_pow_of_pos m (by omega)
  omega

/-- `trailing_zeros` on a power of two is its exponent. -/
theorem trailing_zeros_two_pow (k : Nat) : trailing_zeros (2 ^ k) = k := by
  induction k with
  | zero => rw [trailing_zeros]; simp
  | succ k ih =>
    have e : 2 ^ (k + 1) = 2 * 2 ^ k := by rw [Nat.pow_succ]; omega
    have hp : 0 < 2 ^ k := Nat.pos_pow_of_pos k (by omega)
    rw [trailing_zeros, e]
    rw [if_neg (by omega), if_neg (by omega)]
    rw [show 2 * 2 ^ k / 2 = 2 ^ k by omega, ih]

/-- Closed form of the padding loop: it appends copies of the last element
until the target length is reached. -/
theorem padLeaves_eq (leaves : List Digest) (target : Nat) :
    padLeaves leaves target =
      leaves ++ List.replicate (target - leaves.length) (leaves.getLast?.getD []) := by
  rw [padLeaves]
  split
  · next hlt =>
    rw [padLeaves_eq (leaves ++ [leaves.getLast?.getD []]) target]
    have hlast : (leaves ++ [leaves.getLast?.getD []]).getLast?.getD [] =
        leaves.getLast?.getD [] := by
      simp [List.getLast?_concat]
    rw [hlast, List.length_append, List.length_singleton, List.append_assoc,
        List.singleton_append]
    congr 1
    rw [show target - leaves.length = (target - (leaves.length + 1)) + 1 from by omega,
        List.replicate_succ]
  · next hge =>
    have : target - leaves.length = 0 := by omega
    simp [this]
termination_by target - leaves.length
decreasing_by simp; omega

/-- Padding hits the target length exactly when starting at or below it. -/
theorem padLeaves_length (leaves : List Digest) (target : Nat)
    (h : leaves.length ≤ target) : (padLeaves leaves target).length = target := by
  rw [padLeaves_eq, List.length_append, List.length_replicate]
  omega

/-! ### Helper lemmas: trees built by `MerkleTree.new` -/

/-- Everything `MerkleTree.new` guarantees about a tree it returns: the hasher
is stored unchanged, the height is one more than the exponent `k` of the padded
width, the stored leaves are the sorted input padded to width `2 ^ k`, that
width is the least power of two at or above the input length, and the node
table is the `buildUp` chain over the padded leaves. -/
theorem new_spec (leaves : List Digest) (hp : HashFn) (t : MerkleTree)
    (h : MerkleTree.new leaves hp = some t) :
    ∃ k, t.hp = hp ∧
      t.height = k + 1 ∧
      t.leaves = padLeaves (leaves.mergeSort lexLe) (2 ^ k) ∧
      t.leaves.length = 2 ^ k ∧
      leaves.length ≤ 2 ^ k ∧
      (∀ m, leaves.length ≤ 2 ^ m → 2 ^ k ≤ 2 ^ m) ∧
      t.levels = buildUp hp t.height 0 t.leaves (t.height - 1) ∧
      leaves ≠ [] := by
  simp only [MerkleTree.new] at h
  split at h
  · exact absurd h (by simp)
  · next hne =>
    have hlen : (leaves.mergeSort lexLe).length = leaves.length :=
      List.length_mergeSort leaves
    have hnp : ∃ k,
        (if is_power_of_two (leaves.mergeSort lexLe).length
          then (leaves.mergeSort lexLe).length
          else next_power_of_two (leaves.mergeSort lexLe).length) = 2 ^ k ∧
        leaves.length ≤ 2 ^ k ∧ (∀ m, leaves.length ≤ 2 ^ m → 2 ^ k ≤ 2 ^ m) := by
      split
      · next hip =>
        obtain ⟨k, hk⟩ := (is_power_of_two_iff _).mp hip
        exact ⟨k, hk, by omega, fun m hm => by omega⟩
      · next hip =>
        obtain ⟨k, hk, hle, hmin⟩ := next_power_of_two_spec (leaves.mergeSort lexLe).length
        exact ⟨k, hk, by omega, fun m hm => hmin m (by omega)⟩
    obtain ⟨k, hk, hle, hmin⟩ := hnp
    rw [hk] at h
    rw [trailing_zeros_two_pow] at h
    have hcast := Option.some.inj h
    refine ⟨k, ?_⟩
    subst hcast
    refine ⟨rfl, rfl, rfl, ?_, hle, hmin, rfl, ?_⟩
    · exact padLeaves_length _ _ (by rw [Nat.add_sub_cancel]; omega)
    · intro hcon
      subst hcon
      simp at hne

/-- The head of a `buildUp` chain hanging at `level` is the level-`level`
entry of the node table. -/
theorem buildUp_drop_head (t : MerkleTree) (s level : Nat) (cur : List Digest)
    (hdrop : t.levels.drop level = buildUp t.hp t.height level cur s) :
    t.levels[level]? = some cur := by
  have h0 : (t.levels.drop level)[0]? = some cur := by
    rw [hdrop]; cases s <;> simp [buildUp]
  rw [List.getElem?_drop] at h0
  simpa using h0

/-- Peeling one level off a `buildUp` chain. -/
theorem chain_step (t : MerkleTree) (s level : Nat) (cur : List Digest)
    (hdrop : t.levels.drop level = buildUp t.hp t.height level cur (s + 1)) :
    t.levels.drop (level + 1) =
      buildUp t.hp t.height (level + 1)
        (buildStep t.hp cur (2 ^ (t.height - 2 - level))) s := by
  rw [← List.tail_drop, hdrop]
  simp [buildUp]

/-- A `buildStep` level has exactly the requested width. -/
theorem buildStep_length (hp : HashFn) (prev : List Digest) (width : Nat) :
    (buildStep hp prev width).length = width := by
  simp [buildStep]

/-- The `i`-th node of a `buildStep` level is the pair hash of nodes `i*2` and
`i*2+1` of the previous level. -/
theorem buildStep_getElem (hp : HashFn) (prev : List Digest) (width i : Nat)
    (h : i < width) :
    (buildStep hp prev width)[i]? =
      some (hp ((prev[i * 2]?).getD []) ((prev[i * 2 + 1]?).getD [])) := by
  simp [buildStep, List.getElem?_range h]

/-- Folding the proof items collected from position `ci` of the level hanging
at `level` (with `s` levels above it) reproduces the tree root.  This is the
inductive heart of the round-trip property. -/
theorem proofItemsGo_foldl (t : MerkleTree) (s : Nat) :
    ∀ (level : Nat) (cur : List Digest) (ci : Nat),
      t.levels.drop level = buildUp t.hp t.height level cur s →
      t.height = level + s + 1 →
      cur.length = 2 ^ s →
      ci < 2 ^ s →
      List.foldl
        (fun current item =>
          if item.is_left then t.hp item.hash current else t.hp current item.hash)
        ((cur[ci]?).getD []) (proofItemsGo t s level ci) = t.root := by
  induction s with
  | zero =>
    intro level cur ci hdrop hh hlen hci
    have hhead := buildUp_drop_head t 0 level cur hdrop
    have hci0 : ci = 0 := by
      have : (2 : Nat) ^ 0 = 1 := Nat.pow_zero 2
      omega
    subst hci0
    simp only [proofItemsGo, List.foldl_nil]
    have hlv : t.height - 1 = level := by omega
    simp only [MerkleTree.root, hlv, MerkleTree.nodes, hhead]
  | succ s ih =>
    intro level cur ci hdrop hh hlen hci
    have hhead := buildUp_drop_head t (s + 1) level cur hdrop
    have hstep := chain_step t s level cur hdrop
    have hwidth : t.height - 2 - level = s := by omega
    have h2 : 2 ^ (s + 1) = 2 * 2 ^ s := by rw [Nat.pow_succ]; omega
    have hblen : (buildStep t.hp cur (2 ^ (t.height - 2 - level))).length = 2 ^ s := by
      rw [buildStep_length, hwidth]
    have hci2 : ci / 2 < 2 ^ s := by omega
    have hbget := buildStep_getElem t.hp cur (2 ^ (t.height - 2 - level)) (ci / 2)
      (by rw [hwidth]; exact hci2)
    have hnext := ih (level + 1) (buildStep t.hp cur (2 ^ (t.height - 2 - level)))
      (ci / 2) hstep (by omega) hblen hci2
    rw [hbget] at hnext
    by_cases hodd : ci % 2 = 1
    · have hsib : sibling_index ci = ci - 1 := by simp [sibling_index, hodd]
      have hsiblt : ci - 1 < cur.length := by omega
      obtain ⟨sv, hsv⟩ : ∃ sv, cur[ci - 1]? = some sv :=
        ⟨_, List.getElem?_eq_getElem hsiblt⟩
      have hnodes : t.nodes level (sibling_index ci) = some sv := by
        rw [hsib]
        simp only [MerkleTree.nodes, hhead]
        exact hsv
      have e1 : ci / 2 * 2 = ci - 1 := by omega
      have e2 : ci / 2 * 2 + 1 = ci := by omega
      rw [e2, e1] at hnext
      simp only [proofItemsGo, hnodes, hodd, List.foldl_cons]
      simpa [hsv] using hnext
    · have heven : ci % 2 = 0 := by omega
      have hsib : sibling_index ci = ci + 1 := by simp [sibling_index, heven]
      have hsiblt : ci + 1 < cur.length := by omega
      obtain ⟨sv, hsv⟩ : ∃ sv, cur[ci + 1]? = some sv :=
        ⟨_, List.getElem?_eq_getElem hsiblt⟩
      have hnodes : t.nodes level (sibling_index ci) = some sv := by
        rw [hsib]
        simp only [MerkleTree.nodes, hhead]
        exact hsv
      have e1 : ci / 2 * 2 = ci := by omega
      have e2 : ci / 2 * 2 + 1 = ci + 1 := by omega
      rw [e2, e1] at hnext
      simp only [proofItemsGo, hnodes, heven, List.foldl_cons]
      simpa [hsv] using hnext

/-- Every slot of every level reachable from a `buildUp` chain is populated:
position `pos` of level `L` exists whenever `pos` is below that level's width
`2 ^ (height - 1 - L)`. -/
theorem nodes_isSome_of_chain (t : MerkleTree) (s : Nat) :
    ∀ (level : Nat) (cur : List Digest),
      t.levels.drop level = buildUp t.hp t.height level cur s →
      t.height = level + s + 1 →
      cur.length = 2 ^ s →
      ∀ L pos, level ≤ L → L ≤ level + s → pos < 2 ^ (t.height - 1 - L) →
        ∃ a, t.nodes L pos = some a := by
  induction s with
  | zero =>
    intro level cur hdrop hh hlen L pos hL1 hL2 hpos
    have hLlevel : L = level := by omega
    subst hLlevel
    have hhead := buildUp_drop_head t 0 L cur hdrop
    have hw : t.height - 1 - L = 0 := by omega
    rw [hw] at hpos
    have hposlt : pos < cur.length := by
      have : (2 : Nat) ^ 0 = 1 := Nat.pow_zero 2
      omega
    refine ⟨cur[pos], ?_⟩
    simp only [MerkleTree.nodes, hhead]
    exact List.getElem?_eq_getElem hposlt
  | succ s ih =>
    intro level cur hdrop hh hlen L pos hL1 hL2 hpos
    by_cases hLlevel : L = level
    · subst hLlevel
      have hhead := buildUp_drop_head t (s + 1) L cur hdrop
      have hw : t.height - 1 - L = s + 1 := by omega
      rw [hw] at hpos
      have hposlt : pos < cur.length := by omega
      refine ⟨cur[pos], ?_⟩
      simp only [MerkleTree.nodes, hhead]
      exact List.getElem?_eq_getElem hposlt
    · have hstep := chain_step t s level cur hdrop
      have hblen : (buildStep t.hp cur (2 ^ (t.height - 2 - level))).length = 2 ^ s := by
        rw [buildStep_length]
        congr 1
        omega
      exact ih (level + 1) _ hstep (by omega) hblen L pos (by omega) (by omega) hpos

/-- The parent relation of the node table: below the root level, node `i` of
level `L + 1` is the pair hash of nodes `2i` and `2i + 1` of level `L`. -/
theorem nodes_parent_of_chain (t : MerkleTree) (s : Nat) :
    ∀ (level : Nat) (cur : List Digest),
      t.levels.drop level = buildUp t.hp t.height level cur s →
      t.height = level + s + 1 →
      cur.length = 2 ^ s →
      ∀ L i, level ≤ L → L + 1 ≤ level + s → i < 2 ^ (t.height - 2 - L) →
        ∃ a b, t.nodes L (2 * i) = some a ∧ t.nodes L (2 * i + 1) = some b ∧
          t.nodes (L + 1) i = some (t.hp a b) := by
  induction s with
  | zero =>
    intro level cur hdrop hh hlen L i hL1 hL2 hi
    omega
  | succ s ih =>
    intro level cur hdrop hh hlen L i hL1 hL2 hi
    have hstep := chain_step t s level cur hdrop
    have hblen : (buildStep t.hp cur (2 ^ (t.height - 2 - level))).length = 2 ^ s := by
      rw [buildStep_length]
      congr 1
      omega
    by_cases hLlevel : L = level
    · subst hLlevel
      have hhead := buildUp_drop_head t (s + 1) L cur hdrop
      have hhead2 := buildUp_drop_head t s (L + 1) _ hstep
      have hw : t.height - 2 - L = s := by omega
      rw [hw] at hi
      have h2 : 2 ^ (s + 1) = 2 * 2 ^ s := by rw [Nat.pow_succ]; omega
      have hlt1 : 2 * i < cur.length := by omega
      have hlt2 : 2 * i + 1 < cur.length := by omega
      refine ⟨cur[2 * i], cur[2 * i + 1], ?_, ?_, ?_⟩
      · simp only [MerkleTree.nodes, hhead]
        exact List.getElem?_eq_getElem hlt1
      · simp only [MerkleTree.nodes, hhead]
        exact List.getElem?_eq_getElem hlt2
      · simp only [MerkleTree.nodes, hhead2]
        have hbget := buildStep_getElem t.hp cur (2 ^ (t.height - 2 - L)) i
          (by rw [hw]; exact hi)
        rw [hbget]
        have e1 : i * 2 = 2 * i := by omega
        have e2 : i * 2 + 1 = 2 * i + 1 := by omega
        rw [e2, e1, List.getElem?_eq_getElem hlt1, List.getElem?_eq_getElem hlt2]
        rfl
    · exact ih (level + 1) _ hstep (by omega) hblen L i (by omega) (by omega) hi

/-! ### Helper lemmas: hex encoding and the wire format -/

/-- Decoding a hex digit produced by `hexDigitChar` gives the nibble back. -/
theorem hexVal_hexDigitChar : ∀ n, n < 16 → hexVal (hexDigitChar n) = some n := by
  decide

/-- `hex::decode` inverts `hex::encode` on the character level. -/
theorem hexDecodeChars_hexEncodeChars (d : Digest) :
    hexDecodeChars (hexEncodeChars d) = some d := by
  induction d with
  | nil => rfl
  | cons b bs ih =>
    have hhi : b.val / 16 < 16 := by have := b.isLt; omega
    have hlo : b.val % 16 < 16 := by omega
    simp only [hexEncodeChars, hexDecodeChars, hexVal_hexDigitChar _ hhi,
      hexVal_hexDigitChar _ hlo, ih]
    have hval : 16 * (b.val / 16) + b.val % 16 = b.val := by omega
    rw [hval]
    have hfin : (Fin.ofNat b.val : Byte) = b := by
      apply Fin.ext
      simp [Fin.ofNat]
    rw [hfin]

/-- Parsing one serialized record gives back the proof item it came from. -/
theorem parseProofItem_to_debug (item : ProofItem) :
    parseProofItem
      [("hash", hexEncode item.hash),
       ("direction", if item.is_left then "left" else "right")] = some item := by
  obtain ⟨ihash, ileft⟩ := item
  have l1 : List.lookup "hash"
      [("hash", hexEncode ihash),
       ("direction", (if ileft then "left" else "right" : String))] =
      some (hexEncode ihash) := rfl
  have l2 : List.lookup "direction"
      [("hash", hexEncode ihash),
       ("direction", (if ileft then "left" else "right" : String))] =
      some (if ileft then "left" else "right") := rfl
  have l3 : hexDecode (hexEncode ihash) = some ihash :=
    hexDecodeChars_hexEncodeChars ihash
  simp only [parseProofItem, l1, l2, l3]
  cases ileft <;> rfl

/-- Parsing the full serialized list gives back the original proof items. -/
theorem parseProofItems_to_debug (items : List ProofItem) :
    parseProofItems (items.map fun item =>
      [("hash", hexEncode item.hash),
       ("direction", if item.is_left then "left" else "right")]) = some items := by
  induction items with
  | nil => rfl
  | cons it rest ih =>
    simp only [List.map_cons, parseProofItems, parseProofItem_to_debug it, ih]

/-- One unparseable record anywhere makes the whole parsing loop panic
(`none`). -/
theorem parseProofItems_none (proof_data : List (List (String × String)))
    (h : ∃ item, item ∈ proof_data ∧ parseProofItem item = none) :
    parseProofItems proof_data = none := by
  induction proof_data with
  | nil =>
    obtain ⟨item, hmem, _⟩ := h
    simp at hmem
  | cons x rest ih =>
    obtain ⟨item, hmem, hnone⟩ := h
    rcases List.mem_cons.mp hmem with rfl | hmem2
    · simp [parseProofItems, hnone]
    · have hrest := ih ⟨item, hmem2, hnone⟩
      cases hx : parseProofItem x <;> simp [parseProofItems, hx, hrest]

/-- If every record parses, the loop completes without panicking. -/
theorem parseProofItems_some (proof_data : List (List (String × String)))
    (h : ∀ item, item ∈ proof_data → parseProofItem item ≠ none) :
    ∃ items, parseProofItems proof_data = some items := by
  induction proof_data with
  | nil => exact ⟨[], rfl⟩
  | cons x rest ih =>
    obtain ⟨items, hi⟩ := ih fun it hm => h it (List.mem_cons_of_mem _ hm)
    cases hpx : parseProofItem x with
    | none => exact absurd hpx (h x (List.mem_cons_self _ _))
    | some px => exact ⟨px :: items, by simp [parseProofItems, hpx, hi]⟩

/-- The three malformed-record shapes all make `parseProofItem` panic: a
missing `"hash"` key, a `"hash"` value that is not valid hex, or a missing
`"direction"` key. -/
theorem parseProofItem_none_cases (item : List (String × String))
    (h : item.lookup "hash" = none ∨
      (∃ s, item.lookup "hash" = some s ∧ hexDecode s = none) ∨
      item.lookup "direction" = none) :
    parseProofItem item = none := by
  rcases h with h | ⟨s, hs, hd⟩ | h
  · simp [parseProofItem, h]
  · simp [parseProofItem, hs, hd]
  · cases hl : item.lookup "hash" with
    | none => simp [parseProofItem, hl]
    | some s =>
      cases hd : hexDecode s with
      | none => simp [parseProofItem, hl, hd]
      | some ds => simp [parseProofItem, hl, hd, h]

/-- The left fold of `calculate_root` agrees with the spec-side recursion. -/
theorem foldl_calcRootSpec (hp : HashFn) :
    ∀ (items : List ProofItem) (leaf : Digest),
      List.foldl
        (fun current item =>
          if item.is_left then hp item.hash current else hp current item.hash)
        leaf items = calcRootSpec hp leaf items := by
  intro items
  induction items with
  | nil => intro leaf; rfl
  | cons it rest ih =>
    intro leaf
    simp only [List.foldl_cons, calcRootSpec]
    exact ih _

/-- Concrete evaluation of the sample tree: three one-byte leaves sort to
`[[0],[1],[2]]`, pad to `[[0],[1],[2],[2]]`, and build three levels under the
concatenation hasher. -/
theorem sampleTree_eq : sampleTree =
    ⟨sampleHp, [[0], [1], [2], [2]],
     [[[0], [1], [2], [2]], [[0, 1], [2, 2]], [[0, 1, 2, 2]]], 3⟩ := by
  simp [sampleTree, MerkleTree.new, sampleLeaves, List.mergeSort, List.splitInTwo,
    List.merge, lexLe, is_power_of_two, next_power_of_two, npoGo, trailing_zeros,
    padLeaves, buildUp, buildStep, sampleHp, List.range, List.range.loop]

/-! ### The claims -/

/-- C1: for every tree built from a non-empty list of leaf digests and every
index `i` below the post-padding leaf count, `generate_proof i` succeeds and
`verify_proof` accepts the resulting proof: the generated proof folds back to
the tree's own root. -/
theorem C1_round_trip_fold (leaves : List Digest) (hp : HashFn) (t : MerkleTree)
    (hnew : MerkleTree.new leaves hp = some t) (i : Nat) (hi : i < t.leaves.length) :
    ∃ p, t.generate_proof i = Except.ok p ∧ t.verify_proof p = true := by
  obtain ⟨k, hhp, hh, hpad, hlen, hle, hmin, hlvl, hne⟩ := new_spec leaves hp t hnew
  have hdrop : t.levels.drop 0 = buildUp t.hp t.height 0 t.leaves (t.height - 1) := by
    rw [List.drop_zero, hlvl, hhp]
  have hh' : t.height = 0 + (t.height - 1) + 1 := by omega
  have hlen' : t.leaves.length = 2 ^ (t.height - 1) := by
    rw [hlen]; congr 1; omega
  have hfold := proofItemsGo_foldl t (t.height - 1) 0 t.leaves i hdrop hh' hlen'
    (by omega)
  refine ⟨⟨(t.leaves[i]?).getD [], proofItemsGo t (t.height - 1) 0 i, t.hp⟩, ?_, ?_⟩
  · simp only [MerkleTree.generate_proof]
    rw [if_neg (by omega)]
  · simp only [MerkleTree.verify_proof, MerkleProof.calculate_root]
    rw [hfold]
    simp

/-- Witness for C1 on the sample tree: index 2 of the padded leaves. -/
theorem C1_round_trip_fold_witness :
    ∃ p, sampleTree.generate_proof 2 = Except.ok p ∧
      sampleTree.verify_proof p = true :=
  C1_round_trip_fold sampleLeaves sampleHp sampleTree rfl 2
    (by rw [sampleTree_eq]; decide)

/-- C2: `calculate_root` folds the items exactly as the spec describes (sibling
on the left hashes `(item.hash, current)`, otherwise `(current, item.hash)`),
and `verify root` is true exactly when the recomputed root is byte-equal to the
supplied root; both are total. -/
theorem C2_calculate_root_verify (p : MerkleProof) (root : Digest) :
    p.calculate_root = calcRootSpec p.hp p.leaf p.proof_items ∧
    (p.verify root = true ↔ p.calculate_root = root) := by
  constructor
  · exact foldl_calcRootSpec p.hp p.proof_items p.leaf
  · simp [MerkleProof.verify]

/-- C3: every tree produced by `MerkleTree.new` has a power-of-two leaf count,
height `log2 (leaf count) + 1`, the pair-hash parent relation at every internal
position, and its root stored at `(height - 1, 0)`. -/
theorem C3_invariants (leaves : List Digest) (hp : HashFn) (t : MerkleTree)
    (hnew : MerkleTree.new leaves hp = some t) :
    (∃ k, t.leaves.length = 2 ^ k) ∧
    t.height = Nat.log2 t.leaves.length + 1 ∧
    (∀ L i, L + 1 < t.height → i < 2 ^ (t.height - 2 - L) →
      ∃ a b, t.nodes L (2 * i) = some a ∧ t.nodes L (2 * i + 1) = some b ∧
        t.nodes (L + 1) i = some (t.hp a b)) ∧
    t.nodes (t.height - 1) 0 = some t.root := by
  obtain ⟨k, hhp, hh, hpad, hlen, hle, hmin, hlvl, hne⟩ := new_spec leaves hp t hnew
  have hdrop : t.levels.drop 0 = buildUp t.hp t.height 0 t.leaves (t.height - 1) := by
    rw [List.drop_zero, hlvl, hhp]
  have hh' : t.height = 0 + (t.height - 1) + 1 := by omega
  have hlen' : t.leaves.length = 2 ^ (t.height - 1) := by
    rw [hlen]; congr 1; omega
  refine ⟨⟨k, hlen⟩, ?_, ?_, ?_⟩
  · rw [hlen, Nat.log2_two_pow]; omega
  · intro L i hL hi
    exact nodes_parent_of_chain t (t.height - 1) 0 t.leaves hdrop hh' hlen' L i
      (by omega) (by omega) hi
  · obtain ⟨a, ha⟩ := nodes_isSome_of_chain t (t.height - 1) 0 t.leaves hdrop hh' hlen'
      (t.height - 1) 0 (by omega) (by omega)
      (Nat.pos_pow_of_pos _ (by omega))
    simp [MerkleTree.root, ha]

/-- Witness for C3 on the sample tree. -/
theorem C3_invariants_witness :
    (∃ k, sampleTree.leaves.length = 2 ^ k) ∧
    sampleTree.height = Nat.log2 sampleTree.leaves.length + 1 ∧
    (∀ L i, L + 1 < sampleTree.height → i < 2 ^ (sampleTree.height - 2 - L) →
      ∃ a b, sampleTree.nodes L (2 * i) = some a ∧
        sampleTree.nodes L (2 * i + 1) = some b ∧
        sampleTree.nodes (L + 1) i = some (sampleTree.hp a b)) ∧
    sampleTree.nodes (sampleTree.height - 1) 0 = some sampleTree.root :=
  C3_invariants sampleLeaves sampleHp sampleTree rfl

/-- C4: the stored leaf sequence of a constructed tree is the input sorted
lexicographically (a sorted permutation of the input) extended by repeating
its final element up to the least power of two at or above the input length
(unchanged when the input length is already a power of two, since then the
replicate count is zero), and rebuilding from the same input reproduces the
same padded leaf sequence and root. -/
theorem C4_sorted_padded_leaves (leaves : List Digest) (hp : HashFn)
    (t : MerkleTree) (_hne : leaves ≠ [])
    (hnew : MerkleTree.new leaves hp = some t) :
    ∃ sorted : List Digest,
      sorted.Perm leaves ∧
      List.Pairwise (fun a b => lexLe a b = true) sorted ∧
      t.leaves = sorted ++ List.replicate (t.leaves.length - sorted.length)
        (sorted.getLast?.getD []) ∧
      (∃ k, t.leaves.length = 2 ^ k) ∧
      leaves.length ≤ t.leaves.length ∧
      (∀ m, leaves.length ≤ 2 ^ m → t.leaves.length ≤ 2 ^ m) ∧
      ∀ t', MerkleTree.new leaves hp = some t' →
        t'.leaves = t.leaves ∧ t'.root = t.root := by
  obtain ⟨k, hhp, hh, hpad, hlen, hle, hmin, hlvl, _⟩ := new_spec leaves hp t hnew
  have hsortlen : (leaves.mergeSort lexLe).length = leaves.length :=
    List.length_mergeSort leaves
  refine ⟨leaves.mergeSort lexLe, List.mergeSort_perm leaves lexLe, ?_, ?_,
    ⟨k, hlen⟩, by omega, ?_, ?_⟩
  · exact List.sorted_mergeSort lexLe_trans lexLe_total leaves
  · rw [hpad]
    rw [padLeaves_length _ _ (by omega)]
    exact padLeaves_eq _ _
  · intro m hm
    have := hmin m (by omega)
    omega
  · intro t' ht'
    rw [hnew] at ht'
    rw [Option.some.inj ht']
    exact ⟨rfl, rfl⟩

/-- Witness for C4 on the sample input. -/
theorem C4_sorted_padded_leaves_witness :
    ∃ sorted : List Digest,
      sorted.Perm sampleLeaves ∧
      List.Pairwise (fun a b => lexLe a b = true) sorted ∧
      sampleTree.leaves = sorted ++
        List.replicate (sampleTree.leaves.length - sorted.length)
          (sorted.getLast?.getD []) ∧
      (∃ k, sampleTree.leaves.length = 2 ^ k) ∧
      sampleLeaves.length ≤ sampleTree.leaves.length ∧
      (∀ m, sampleLeaves.length ≤ 2 ^ m → sampleTree.leaves.length ≤ 2 ^ m) ∧
      ∀ t', MerkleTree.new sampleLeaves sampleHp = some t' →
        t'.leaves = sampleTree.leaves ∧ t'.root = sampleTree.root :=
  C4_sorted_padded_leaves sampleLeaves sampleHp sampleTree (by decide) rfl

/-- C5: constructing a tree from an empty leaf sequence is a construction-time
failure (the Rust `panic!` is modelled as `none`), and it is the only one;
every tree actually produced is non-degenerate (non-empty leaves, positive
height). -/
theorem C5_empty_input_fatal (leaves : List Digest) (hp : HashFn) :
    (MerkleTree.new leaves hp = none ↔ leaves = []) ∧
    ∀ t, MerkleTree.new leaves hp = some t → t.leaves ≠ [] ∧ 0 < t.height := by
  constructor
  · simp only [MerkleTree.new]
    split
    · next h => simp_all [List.isEmpty_iff]
    · next h => simp_all [List.isEmpty_iff]
  · intro t ht
    obtain ⟨k, _, hh, _, hlen, _, _, _, _⟩ := new_spec leaves hp t ht
    have hpos : 0 < 2 ^ k := Nat.pos_pow_of_pos k (by omega)
    constructor
    · intro hcon
      rw [hcon] at hlen
      simp at hlen
      omega
    · omega

/-- Witness for C5: empty input is refused, the sample tree is non-degenerate. -/
theorem C5_empty_input_fatal_witness :
    MerkleTree.new [] sampleHp = none ∧
    (sampleTree.leaves ≠ [] ∧ 0 < sampleTree.height) :=
  ⟨(C5_empty_input_fatal [] sampleHp).1.mpr rfl,
   (C5_empty_input_fatal sampleLeaves sampleHp).2 sampleTree rfl⟩

/-- C6: `generate_proof` returns the recoverable "index out of bounds" error
exactly when the index reaches the post-padding leaf count, and for every
in-bounds index returns `Ok` with a proof whose `leaf` field is the stored
leaf at that index. -/
theorem C6_generate_proof_bounds (t : MerkleTree) (i : Nat) :
    (t.generate_proof i = Except.error "Leaf index out of bounds" ↔
      t.leaves.length ≤ i) ∧
    (i < t.leaves.length →
      ∃ p, t.generate_proof i = Except.ok p ∧
        p.leaf = (t.leaves[i]?).getD []) := by
  constructor
  · simp only [MerkleTree.generate_proof]
    split
    · next h => exact ⟨fun _ => h, fun _ => rfl⟩
    · next h =>
      constructor
      · intro hcon
        exact Except.noConfusion hcon
      · intro hle
        exact absurd hle h
  · intro hi
    refine ⟨⟨(t.leaves[i]?).getD [], proofItemsGo t (t.height - 1) 0 i, t.hp⟩,
      ?_, rfl⟩
    simp only [MerkleTree.generate_proof]
    rw [if_neg (by omega)]

/-- Witness for C6: index 1 is in bounds, index 9 is out of bounds, on the
sample tree. -/
theorem C6_generate_proof_bounds_witness :
    (∃ p, sampleTree.generate_proof 1 = Except.ok p ∧
      p.leaf = (sampleTree.leaves[1]?).getD []) ∧
    (sampleTree.generate_proof 9 =
      Except.error "Leaf index out of bounds" ↔ sampleTree.leaves.length ≤ 9) :=
  ⟨(C6_generate_proof_bounds sampleTree 1).2 (by rw [sampleTree_eq]; decide),
   (C6_generate_proof_bounds sampleTree 9).1⟩

/-- C7: `generate_proof_by_value` agrees with `generate_proof` at the first
(lowest) index whose stored leaf equals the digest, and returns the
recoverable "value not found" error exactly when no stored leaf matches. -/
theorem C7_generate_proof_by_value (t : MerkleTree) (v : Digest) :
    (∀ i, t.find_leaf_index v = some i →
      t.generate_proof_by_value v = t.generate_proof i ∧
      i < t.leaves.length ∧ t.leaves[i]? = some v ∧
      ∀ j, j < i → t.leaves[j]? ≠ some v) ∧
    (t.find_leaf_index v = none ↔ ∀ x, x ∈ t.leaves → x ≠ v) ∧
    (t.find_leaf_index v = none →
      t.generate_proof_by_value v =
        Except.error "Leaf value not found in the tree") := by
  refine ⟨?_, ?_, ?_⟩
  · intro i hfind
    have hfi : t.leaves.findIdx? (fun leaf => leaf == v) = some i := hfind
    obtain ⟨hlt, hpi, hprev⟩ := List.findIdx?_eq_some_iff_getElem.mp hfi
    refine ⟨?_, hlt, ?_, ?_⟩
    · simp [MerkleTree.generate_proof_by_value, hfind]
    · rw [List.getElem?_eq_getElem hlt]
      exact congrArg some (eq_of_beq hpi)
    · intro j hj hcon
      have hj' : j < t.leaves.length := Nat.lt_trans hj hlt
      rw [List.getElem?_eq_getElem hj'] at hcon
      have hji := Option.some.inj hcon
      exact hprev j hj (by simp [hji])
  · simp only [MerkleTree.find_leaf_index, List.findIdx?_eq_none_iff]
    constructor
    · intro h x hx
      simpa using h x hx
    · intro h x hx
      simpa using h x hx
  · intro hnone
    simp [MerkleTree.generate_proof_by_value, hnone]

/-- Witness for C7: digest `[1]` sits at index 1 of the sample tree; digest
`[9]` is absent. -/
theorem C7_generate_proof_by_value_witness :
    (sampleTree.generate_proof_by_value [1] = sampleTree.generate_proof 1 ∧
      1 < sampleTree.leaves.length ∧ sampleTree.leaves[1]? = some [1] ∧
      ∀ j, j < 1 → sampleTree.leaves[j]? ≠ some [1]) ∧
    sampleTree.generate_proof_by_value [9] =
      Except.error "Leaf value not found in the tree" :=
  ⟨(C7_generate_proof_by_value sampleTree [1]).1 1 (by rw [sampleTree_eq]; decide),
   (C7_generate_proof_by_value sampleTree [9]).2.2 (by rw [sampleTree_eq]; decide)⟩

/-- C8: in a tree built by `MerkleTree.new`, every level of the node table is
fully populated (every position below the level's width is present), and in
particular the sibling lookup performed by `generate_proof` at each level
(position `sibling_index (i / 2 ^ L)` at level `L`) always succeeds for every
in-bounds leaf index, so the fallback branch that substitutes the current node
never fires. -/
theorem C8_sibling_lookup_total (leaves : List Digest) (hp : HashFn)
    (t : MerkleTree) (hnew : MerkleTree.new leaves hp = some t) :
    (∀ L pos, L < t.height → pos < 2 ^ (t.height - 1 - L) →
      (t.nodes L pos).isSome = true) ∧
    (∀ i, i < t.leaves.length → ∀ L, L < t.height - 1 →
      (t.nodes L (sibling_index (i / 2 ^ L))).isSome = true) := by
  obtain ⟨k, hhp, hh, hpad, hlen, hle, hmin, hlvl, hne⟩ := new_spec leaves hp t hnew
  have hdrop : t.levels.drop 0 = buildUp t.hp t.height 0 t.leaves (t.height - 1) := by
    rw [List.drop_zero, hlvl, hhp]
  have hh' : t.height = 0 + (t.height - 1) + 1 := by omega
  have hlen' : t.leaves.length = 2 ^ (t.height - 1) := by
    rw [hlen]; congr 1; omega
  constructor
  · intro L pos hL hpos
    obtain ⟨a, ha⟩ := nodes_isSome_of_chain t (t.height - 1) 0 t.leaves hdrop hh'
      hlen' L pos (by omega) (by omega) hpos
    simp [ha]
  · intro i hi L hL
    have hLk : L ≤ t.height - 1 := by omega
    have hpow : (2 : Nat) ^ (t.height - 1) = 2 ^ (t.height - 1 - L) * 2 ^ L := by
      rw [← Nat.pow_add]
      congr 1
      omega
    have hL0 : 0 < 2 ^ L := Nat.pos_pow_of_pos L (by omega)
    have hquot : i / 2 ^ L < 2 ^ (t.height - 1 - L) := by
      rw [Nat.div_lt_iff_lt_mul hL0]
      omega
    have hWeven : (2 : Nat) ^ (t.height - 1 - L) % 2 = 0 := by
      have hsplit : t.height - 1 - L = (t.height - 2 - L) + 1 := by omega
      have : (2 : Nat) ^ ((t.height - 2 - L) + 1) = 2 ^ (t.height - 2 - L) * 2 := by
        rw [Nat.pow_succ]
      rw [hsplit]
      omega
    have hsiblt : sibling_index (i / 2 ^ L) < 2 ^ (t.height - 1 - L) := by
      rw [sibling_index]
      by_cases hodd : (i / 2 ^ L) % 2 = 1
      · rw [if_pos (by simp [hodd])]
        exact Nat.lt_of_le_of_lt (Nat.sub_le _ _) hquot
      · have heven : (i / 2 ^ L) % 2 = 0 := by omega
        rw [if_neg (by simp [heven])]
        omega
    obtain ⟨a, ha⟩ := nodes_isSome_of_chain t (t.height - 1) 0 t.leaves hdrop hh'
      hlen' L (sibling_index (i / 2 ^ L)) (by omega) (by omega) hsiblt
    simp [ha]

/-- Witness for C8 on the sample tree. -/
theorem C8_sibling_lookup_total_witness :
    (∀ L pos, L < sampleTree.height → pos < 2 ^ (sampleTree.height - 1 - L) →
      (sampleTree.nodes L pos).isSome = true) ∧
    (∀ i, i < sampleTree.leaves.length → ∀ L, L < sampleTree.height - 1 →
      (sampleTree.nodes L (sibling_index (i / 2 ^ L))).isSome = true) :=
  C8_sibling_lookup_total sampleLeaves sampleHp sampleTree rfl

/-- C9: serializing any proof with `to_debug_format` and running the
reconstruct-and-verify companion `verify_with_formatted_proof` with the same
leaf digest, hasher, and a given root yields `some` of exactly the boolean
that `verify` returns on the original in-memory proof. -/
theorem C9_serialization_round_trip (p : MerkleProof) (root : Digest) :
    verify_with_formatted_proof root p.leaf p.to_debug_format p.hp =
      some (p.verify root) := by
  obtain ⟨leaf, items, hp⟩ := p
  simp only [MerkleProof.to_debug_format, verify_with_formatted_proof,
    parseProofItems_to_debug]

/-- C10: the deserializing verifier panics (`none` in this model) whenever any
record lacks a `"hash"` or `"direction"` key or carries invalid hex under
`"hash"`, while a proof whose records all parse always yields a boolean
verdict (`some`), never a panic — tampered-but-well-formed input fails closed
with `some false` rather than crashing. -/
theorem C10_malformed_wire_panics (root leaf : Digest)
    (proof_data : List (List (String × String))) (hp : HashFn) :
    ((∃ item, item ∈ proof_data ∧
        (item.lookup "hash" = none ∨
         (∃ s, item.lookup "hash" = some s ∧ hexDecode s = none) ∨
         item.lookup "direction" = none)) →
      verify_with_formatted_proof root leaf proof_data hp = none) ∧
    ((∀ item, item ∈ proof_data → parseProofItem item ≠ none) →
      ∃ b, verify_with_formatted_proof root leaf proof_data hp = some b) := by
  constructor
  · rintro ⟨item, hmem, hbad⟩
    have hnone := parseProofItems_none proof_data
      ⟨item, hmem, parseProofItem_none_cases item hbad⟩
    simp [verify_with_formatted_proof, hnone]
  · intro hgood
    obtain ⟨items, hitems⟩ := parseProofItems_some proof_data hgood
    exact ⟨(MerkleProof.mk leaf items hp).verify root,
      by simp [verify_with_formatted_proof, hitems]⟩

/-- Witness for C10: a record with no `"hash"` key panics; a record with
invalid hex panics; a well-formed but non-matching proof returns a boolean. -/
theorem C10_malformed_wire_panics_witness :
    verify_with_formatted_proof [] [] [[("direction", "left")]] sampleHp = none ∧
    verify_with_formatted_proof [] []
      [[("hash", "zz"), ("direction", "left")]] sampleHp = none ∧
    ∃ b, verify_with_formatted_proof [1] []
      [[("hash", "00"), ("direction", "left")]] sampleHp = some b :=
  ⟨(C10_malformed_wire_panics [] [] [[("direction", "left")]] sampleHp).1
     ⟨[("direction", "left")], by simp, Or.inl rfl⟩,
   (C10_malformed_wire_panics [] []
      [[("hash", "zz"), ("direction", "left")]] sampleHp).1
     ⟨[("hash", "zz"), ("direction", "left")], by simp,
      Or.inr (Or.inl ⟨"zz", rfl, rfl⟩)⟩,
   (C10_malformed_wire_panics [1] []
      [[("hash", "00"), ("direction", "left")]] sampleHp).2
     (by
       intro item hmem
       rw [List.mem_singleton] at hmem
       subst hmem
       decide)⟩
